import Mathlib

/-!
Shallow embedding of the ORide-style oblivious ride-matching demo
(`application-gateway-go/model` rider and driver files and
`utilities/mpc-utilities.go`).  Go `uint64` arithmetic is modelled as `ℕ`
with explicit reduction modulo `2 ^ 64` where overflow can occur; BFV slot
arithmetic of the external homomorphic capability is modelled slotwise
modulo the plaintext modulus `T`.
-/

/-- Modulus of Go `uint64` arithmetic. -/
def U64 : ℕ := 2 ^ 64

/-- BFV batching parameters kept by the rider: `logN` (so the slot count is
`N = 2 ^ logN`) and the plaintext modulus `T`.  Mirrors the `bfv.Parameters`
accessors used by the code (`params.LogN()`, `params.T()`). -/
structure Params where
  logN : ℕ
  T : ℕ
deriving DecidableEq

/-- Number of batching slots `N = 1 << LogN`. -/
def Params.N (p : Params) : ℕ := 2 ^ p.logN

/-- The parameter literal fixed by `NewRider`: `bfv.PN13QP218` (`LogN = 13`)
with the plaintext modulus overridden to `paramDef.T = 0x3ee0001`. -/
def paramDef : Params := { logN := 13, T := 0x3ee0001 }

/-- The bound `maxvalue := uint64(math.Sqrt(float64(T)))` computed in
`GetCipheredPosition` and `GetNearDrivers`.  The code only instantiates
`T = 0x3ee0001 < 2 ^ 53`, where the correctly rounded float square root
truncates to exactly `Nat.sqrt T`. -/
def maxValueOf (T : ℕ) : ℕ := Nat.sqrt T

/-- Deterministic PRNG state: an abstract stream of draws and a position. -/
structure PRNG where
  stream : ℕ → ℕ
  pos : ℕ

/-- Modelled from the spec: `ring.RandUniform(prng, maxvalue, mask)` of the
external lattigo library (not under the repository core) returns a sample
drawn uniformly from `[0, maxvalue)`; it is modelled as consuming the next
stream value reduced into the required range. -/
def randUniform (p : PRNG) (maxv : ℕ) : ℕ × PRNG :=
  (p.stream p.pos % maxv, { stream := p.stream, pos := p.pos + 1 })

/-- Which key of the rider key pair a ciphertext was produced with. -/
inductive KeyKind where
  | pk : KeyKind
  | sk : KeyKind
deriving DecidableEq

/-- Modelled from the spec: a ciphertext of the ideal external homomorphic
capability (spec section 6) carries the encoded slot vector together with
the key that encrypted it; homomorphic operations act slotwise mod `T`. -/
structure Ciphertext where
  keyKind : KeyKind
  slots : ℕ → ℕ

/-- Modelled from the spec: encode-then-encrypt of the ideal capability. -/
def encrypt (k : KeyKind) (v : ℕ → ℕ) : Ciphertext := ⟨k, v⟩

/-- Modelled from the spec: decrypt-then-decode of the ideal capability,
lossless on residues in `[0, T)`. -/
def decryptDecode (T : ℕ) (c : Ciphertext) : ℕ → ℕ := fun s => c.slots s % T

/-- Modelled from the spec: homomorphic negation (`evaluator.Neg`). -/
def negCt (T : ℕ) (c : Ciphertext) : Ciphertext :=
  ⟨c.keyKind, fun s => (T - c.slots s % T) % T⟩

/-- Modelled from the spec: homomorphic addition (`evaluator.Add`). -/
def addCt (T : ℕ) (a b : Ciphertext) : Ciphertext :=
  ⟨a.keyKind, fun s => (a.slots s + b.slots s) % T⟩

/-- Modelled from the spec: homomorphic multiplication (`evaluator.MulNew`). -/
def mulCt (T : ℕ) (a b : Ciphertext) : Ciphertext :=
  ⟨a.keyKind, fun s => (a.slots s * b.slots s) % T⟩

/-- Zero-value ciphertext, used as the out-of-range default when indexing a
ciphertext slice. -/
def defaultCt : Ciphertext := ⟨KeyKind.pk, fun _ => 0⟩

/-- The all-zero slot vector (`make([]uint64, N)`). -/
def zeroFn : ℕ → ℕ := fun _ => 0

/-- Pointwise update of a slot vector (the array write `v[j] = x`). -/
def updFn (v : ℕ → ℕ) (j x : ℕ) : ℕ → ℕ := fun s => if s = j then x else v s

/-- The `Rider` struct fields relevant to the protocol: the ambient BFV
parameters, the shared PRNG and the plaintext coordinates stored by
`GetCipheredPosition` for the later consistency check.  Keys, encoder and
evaluator are the ideal capability and carry no state of their own here. -/
structure Rider where
  RiderID : String
  Params : Params
  Prng : PRNG
  riderPosX : ℕ
  riderPosY : ℕ

/-- `NewRider`: fixes the parameter literal `bfv.PN13QP218` with
`T = 0x3ee0001` and zero-initialised coordinates (Go zero values). -/
def NewRider (riderID : String) (prng : PRNG) : Rider :=
  { RiderID := riderID, Params := paramDef, Prng := prng,
    riderPosX := 0, riderPosY := 0 }

/-- The rider slot vector built by `GetCipheredPosition`: starting from the
all-zero vector of length `N`, the loop writes `Rider[i<<1] = riderPosX` and
`Rider[(i<<1)+1] = riderPosY` for `i = 0 .. nbDrivers-1`. -/
def riderVector (nbDrivers rx ry : ℕ) : ℕ → ℕ :=
  (List.range nbDrivers).foldl
    (fun v i => updFn (updFn v (2 * i) rx) (2 * i + 1) ry) zeroFn

/-- `GetCipheredPosition`: samples the rider coordinates with two
`ring.RandUniform` draws bounded by `maxvalue`, stores them in the rider
struct (pointer receiver), replicates them into every candidate slot pair
and encrypts the encoded vector with `encryptorRiderSk` (the secret key).
The receiver mutation is modelled by returning the updated rider. -/
def GetCipheredPosition (rider : Rider) (nbDrivers : ℕ) : Rider × Ciphertext :=
  let maxv := maxValueOf rider.Params.T
  let r1 := randUniform rider.Prng maxv
  let r2 := randUniform r1.2 maxv
  let rider' := { rider with Prng := r2.2, riderPosX := r1.1, riderPosY := r2.1 }
  (rider', encrypt KeyKind.sk (riderVector nbDrivers r1.1 r2.1))

/-- The slot vector of driver `i` built by `GetNearDrivers`: the all-zero
vector of length `N` with `driversData[i][i<<1] = dx` and
`driversData[i][(i<<1)+1] = dy`. -/
def driverVector (i dx dy : ℕ) : ℕ → ℕ :=
  updFn (updFn zeroFn (2 * i) dx) (2 * i + 1) dy

/-- The `Drivers` struct: the winning identifier written by
`FindClosestDriver`, the per-driver ciphertexts and the per-driver
plaintext slot vectors kept for the diagnostic consistency check. -/
structure Drivers where
  ClosestDriverID : String
  DriverCipherTexts : List Ciphertext
  DriversData : List (ℕ → ℕ)

/-- The data-generation loop of `GetNearDrivers`: for each `i` it draws
`dx` and `dy` with `ring.RandUniform` and appends the slot vector of
driver `i`.  Returns the advanced PRNG and the list of slot vectors. -/
def genDriversData (maxv nb : ℕ) (pr : PRNG) : PRNG × List (ℕ → ℕ) :=
  (List.range nb).foldl
    (fun acc i =>
      let r1 := randUniform acc.1 maxv
      let r2 := randUniform r1.2 maxv
      (r2.2, acc.2 ++ [driverVector i r1.1 r2.1]))
    (pr, [])

/-- `GetNearDrivers`: generates `nbDrivers` random driver slot vectors and
encrypts each one with `rider.EncryptorRiderPk` (the rider public key).
The shared `*KeyedPRNG` advance is modelled by returning the new PRNG. -/
def GetNearDrivers (rider : Rider) (nbDrivers : ℕ) : PRNG × Drivers :=
  let maxv := maxValueOf rider.Params.T
  let gen := genDriversData maxv nbDrivers rider.Prng
  (gen.1,
    { ClosestDriverID := ""
      DriverCipherTexts := gen.2.map (fun v => encrypt KeyKind.pk v)
      DriversData := gen.2 })

/-- A driver pool whose plaintext data and ciphertexts agree, with driver
`i` at coordinate `(dx i, dy i)`: the shape `GetNearDrivers` produces,
parameterised by the sampled coordinates. -/
def mkDrivers (nb : ℕ) (dx dy : ℕ → ℕ) : Drivers :=
  { ClosestDriverID := ""
    DriverCipherTexts :=
      (List.range nb).map (fun i => encrypt KeyKind.pk (driverVector i (dx i) (dy i)))
    DriversData := (List.range nb).map (fun i => driverVector i (dx i) (dy i)) }

/-- The intermediate value `x := a - c` (respectively `y := b - d`) of the
`distance` function after its conditional swap, as a Go `uint64`:
`if a > c { a, c = c, a }` leaves the smaller operand first, so the
subtraction is computed modulo `2 ^ 64`. -/
def distanceSub (a c : ℕ) : ℕ :=
  if a > c then (c + U64 - a) % U64 else (a + U64 - c) % U64

/-- The `distance` function of the selector: conditional swaps, `uint64`
subtractions, and `x*x + y*y` in `uint64` arithmetic. -/
def distance (a b c d : ℕ) : ℕ :=
  (distanceSub a c * distanceSub a c % U64 + distanceSub b d * distanceSub b d % U64) % U64

/-- The mathematical squared Euclidean distance the spec refers to, with
order-independent subtraction. -/
def sqDist (a b c d : ℕ) : ℕ :=
  (max a c - min a c) * (max a c - min a c) + (max b d - min b d) * (max b d - min b d)

/-- The running state of the selection loop of `FindClosestDriver`:
`minIndex, minPosX, minPosY, minDist := 0, T, T, T` and `errors := 0`. -/
structure SelState where
  minIndex : ℕ
  minPosX : ℕ
  minPosY : ℕ
  minDist : ℕ
  errors : ℕ
deriving DecidableEq

/-- Initial selection state `0, T, T, T` with `errors = 0`. -/
def selInit (T : ℕ) : SelState := ⟨0, T, T, T, 0⟩

/-- One iteration of the selection loop: read driver `i` plaintext
coordinates from its own slot pair, compute
`computedDist := result[i<<1] + result[(i<<1)+1]` (a `uint64` addition),
recompute `expectedDist` with `distance`, and either track the running
minimum on strict improvement or count an error. -/
def selStep (rx ry : ℕ) (result : ℕ → ℕ) (data : List (ℕ → ℕ))
    (st : SelState) (i : ℕ) : SelState :=
  if (result (2 * i) + result (2 * i + 1)) % U64
      = distance ((data.getD i zeroFn) (2 * i)) ((data.getD i zeroFn) (2 * i + 1)) rx ry then
    if (result (2 * i) + result (2 * i + 1)) % U64 < st.minDist then
      ⟨i, (data.getD i zeroFn) (2 * i), (data.getD i zeroFn) (2 * i + 1),
        (result (2 * i) + result (2 * i + 1)) % U64, st.errors⟩
    else st
  else ⟨st.minIndex, st.minPosX, st.minPosY, st.minDist, st.errors + 1⟩

/-- The selection loop of `FindClosestDriver` over `i = 0 .. nbDrivers-1`. -/
def selLoop (T rx ry : ℕ) (result : ℕ → ℕ) (data : List (ℕ → ℕ)) (nb : ℕ) : SelState :=
  (List.range nb).foldl (selStep rx ry result data) (selInit T)

/-- Number of candidates whose decoded slot-pair sum disagrees with the
plaintext recomputation. -/
def mismatchCount (rx ry : ℕ) (result : ℕ → ℕ) (data : List (ℕ → ℕ)) (nb : ℕ) : ℕ :=
  ((Finset.range nb).filter (fun i =>
    (result (2 * i) + result (2 * i + 1)) % U64
      ≠ distance ((data.getD i zeroFn) (2 * i)) ((data.getD i zeroFn) (2 * i + 1)) rx ry)).card

/-- The in-place accumulation of `FindClosestDriver`:
`evaluator.Neg(riderCiphertext, riderCiphertext)` followed by
`evaluator.Add(riderCiphertext, drivers.DriverCipherTexts[i], riderCiphertext)`
for `i = 0 .. nbDrivers-1`. -/
def accumulateCt (T : ℕ) (rct : Ciphertext) (cts : List Ciphertext) (nb : ℕ) : Ciphertext :=
  (List.range nb).foldl (fun c i => addCt T c (cts.getD i defaultCt)) (negCt T rct)

/-- The decoded evaluation result of `FindClosestDriver`:
`encoder.DecodeUintNew(decryptor.DecryptNew(evaluator.MulNew(ct, ct)))`
applied to the accumulated ciphertext. -/
def evalResult (rider : Rider) (rct : Ciphertext) (drivers : Drivers) (nb : ℕ) : ℕ → ℕ :=
  let acc := accumulateCt rider.Params.T rct drivers.DriverCipherTexts nb
  decryptDecode rider.Params.T (mulCt rider.Params.T acc acc)

/-- `FindClosestDriver`: accumulate (mutating the caller ciphertext, which
is modelled by returning the final accumulator first), square once, decode,
run the selection loop, and write `ClosestDriverID = "Driver" + itoa(minIndex)`
into the drivers struct.  The selection state is returned for inspection of
the diagnostic error counter the code reports. -/
def FindClosestDriver (rider : Rider) (riderCiphertext : Ciphertext)
    (drivers : Drivers) (nbDrivers : ℕ) : Ciphertext × Drivers × SelState :=
  let acc := accumulateCt rider.Params.T riderCiphertext drivers.DriverCipherTexts nbDrivers
  let result := evalResult rider riderCiphertext drivers nbDrivers
  let st := selLoop rider.Params.T rider.riderPosX rider.riderPosY result drivers.DriversData nbDrivers
  (acc, { drivers with ClosestDriverID := "Driver" ++ Nat.repr st.minIndex }, st)

/-- `ObliviousRideMatching`: the full round.  Returns the winning identifier
and the caller-visible found flag `ClosestDriverID != ""` (the timing values
of the Go function are dropped). -/
def ObliviousRideMatching (nbDrivers : ℕ) (riderID : String) (prng : PRNG) : String × Bool :=
  let rider := NewRider riderID prng
  let rc := GetCipheredPosition rider nbDrivers
  let gd := GetNearDrivers rc.1 nbDrivers
  let rider2 := { rc.1 with Prng := gd.1 }
  let fcd := FindClosestDriver rider2 rc.2 gd.2 nbDrivers
  (fcd.2.1.ClosestDriverID, !(fcd.2.1.ClosestDriverID == ""))

/-- An all-zero PRNG stream, for concrete scenarios. -/
def zeroPrng : PRNG := { stream := fun _ => 0, pos := 0 }

/-- A rider with the code's parameters placed at a given coordinate. -/
def riderAt (rx ry : ℕ) : Rider :=
  { RiderID := "Rider", Params := paramDef, Prng := zeroPrng,
    riderPosX := rx, riderPosY := ry }

/-! ### Per-claim concrete inputs and pipeline wrapper -/

def runPipeline (rider : Rider) (nb : ℕ) (dx dy : ℕ → ℕ) : Ciphertext × Drivers × SelState :=
  FindClosestDriver rider
    (encrypt KeyKind.sk (riderVector nb rider.riderPosX rider.riderPosY))
    (mkDrivers nb dx dy) nb

def c1dx : ℕ → ℕ := fun i => if i = 0 then 8118 else 8118
def c1dy : ℕ → ℕ := fun i => if i = 0 then 8118 else 166
def c1Drivers : Drivers := mkDrivers 2 c1dx c1dy
def c1Ct : Ciphertext := encrypt KeyKind.sk (riderVector 2 0 0)

def c3Rider : Rider := riderAt 10 10
def c3dx : ℕ → ℕ := fun i => [12, 10, 100, 10].getD i 0
def c3dy : ℕ → ℕ := fun i => [10, 7, 100, 10].getD i 0
def c3Drivers : Drivers := mkDrivers 4 c3dx c3dy
def c3Ct : Ciphertext := encrypt KeyKind.sk (riderVector 4 10 10)

def c4Rider : Rider := riderAt 0 0
def c4Ct : Ciphertext := encrypt KeyKind.sk (riderVector 1 0 0)
def c4Drivers : Drivers :=
  { ClosestDriverID := ""
    DriverCipherTexts := [encrypt KeyKind.pk (driverVector 0 1 1)]
    DriversData := [driverVector 0 5 5] }

def c10Ct : Ciphertext := encrypt KeyKind.sk (riderVector 1 10 10)
def c10Drivers : Drivers := mkDrivers 1 (fun _ => 12) (fun _ => 10)

/-! ### Basic characterizations -/

theorem maxValue_T0 : maxValueOf paramDef.T = 8119 :=
  (Nat.eq_sqrt.mpr (by norm_num [paramDef])).symm

theorem riderVector_succ (n rx ry : ℕ) :
    riderVector (n + 1) rx ry
      = updFn (updFn (riderVector n rx ry) (2 * n) rx) (2 * n + 1) ry := by
  unfold riderVector
  rw [List.range_succ, List.foldl_append]
  rfl

theorem riderVector_eval (rx ry : ℕ) :
    ∀ nb s, riderVector nb rx ry s
      = if s < 2 * nb then (if s % 2 = 0 then rx else ry) else 0 := by
  intro nb
  induction nb with
  | zero => intro s; simp [riderVector, zeroFn]
  | succ n ih =>
    intro s
    rw [riderVector_succ]
    show (if s = 2 * n + 1 then ry else if s = 2 * n then rx else riderVector n rx ry s) = _
    by_cases h1 : s = 2 * n + 1
    · subst h1
      rw [if_pos rfl, if_pos (by omega : 2 * n + 1 < 2 * (n + 1)),
        if_neg (by omega : ¬ (2 * n + 1) % 2 = 0)]
    · rw [if_neg h1]
      by_cases h2 : s = 2 * n
      · subst h2
        rw [if_pos rfl, if_pos (by omega : 2 * n < 2 * (n + 1)),
          if_pos (by omega : (2 * n) % 2 = 0)]
      · rw [if_neg h2, ih s]
        split_ifs <;> first | rfl | omega

theorem driverVector_eval (i dx dy s : ℕ) :
    driverVector i dx dy s
      = if s = 2 * i + 1 then dy else if s = 2 * i then dx else 0 := by
  simp [driverVector, updFn, zeroFn]

theorem accumulateCt_succ (T : ℕ) (rct : Ciphertext) (cts : List Ciphertext) (n : ℕ) :
    accumulateCt T rct cts (n + 1)
      = addCt T (accumulateCt T rct cts n) (cts.getD n defaultCt) := by
  unfold accumulateCt
  rw [List.range_succ, List.foldl_append]
  rfl

theorem accumulateCt_slots (T : ℕ) (rct : Ciphertext) (cts : List Ciphertext) :
    ∀ nb s, (accumulateCt T rct cts nb).slots s
      = ((T - rct.slots s % T) % T
          + ∑ i ∈ Finset.range nb, (cts.getD i defaultCt).slots s) % T := by
  intro nb
  induction nb with
  | zero =>
    intro s
    show (T - rct.slots s % T) % T = _
    rw [Finset.sum_range_zero, Nat.add_zero, Nat.mod_mod_of_dvd _ dvd_rfl]
  | succ n ih =>
    intro s
    rw [accumulateCt_succ]
    show ((accumulateCt T rct cts n).slots s + (cts.getD n defaultCt).slots s) % T = _
    rw [ih s, Nat.mod_add_mod, Finset.sum_range_succ, Nat.add_assoc]

theorem getD_map_range {α : Type} (f : ℕ → α) (d : α) (nb i : ℕ) (h : i < nb) :
    ((List.range nb).map f).getD i d = f i := by
  have hlen : i < ((List.range nb).map f).length := by
    simpa using h
  rw [List.getD_eq_getElem _ _ hlen, List.getElem_map, List.getElem_range]

/-! ### Modular arithmetic of the ideal capability and of `uint64` -/

theorem sq_bounds_of_lt_sqrt (T k : ℕ) (hk : k < Nat.sqrt T) :
    k * k < T ∧ 2 * k ≤ T := by
  have h1 : k + 1 ≤ Nat.sqrt T := hk
  have h2 : (k + 1) * (k + 1) ≤ Nat.sqrt T * Nat.sqrt T := Nat.mul_le_mul h1 h1
  have h3 : Nat.sqrt T * Nat.sqrt T ≤ T := Nat.sqrt_le T
  have h4 : (k + 1) * (k + 1) = k * k + 2 * k + 1 := by ring
  omega

theorem negadd_sq (m k : ℕ) (h2 : 2 * k ≤ m) (hk : k * k < m) :
    ((m - k) % m) * ((m - k) % m) % m = k * k := by
  rcases Nat.eq_zero_or_pos k with hk0 | hk0
  · subst hk0
    simp [Nat.mod_self]
  · have hlt : m - k < m := by omega
    rw [Nat.mod_eq_of_lt hlt]
    have key : (m - k) * (m - k) = m * (m - 2 * k) + k * k := by
      zify [show k ≤ m by omega, h2]
      ring
    rw [key, Nat.mul_add_mod, Nat.mod_eq_of_lt hk]

theorem distanceSub_sq (a c : ℕ) (ha : a < 2 ^ 32) (hc : c < 2 ^ 32) :
    distanceSub a c * distanceSub a c % U64
      = (max a c - min a c) * (max a c - min a c) := by
  have hU : U64 = 18446744073709551616 := by norm_num [U64]
  unfold distanceSub
  by_cases h : a > c
  · rw [if_pos h, Nat.max_eq_left (by omega), Nat.min_eq_right (by omega),
      show c + U64 - a = U64 - (a - c) by omega]
    exact negadd_sq U64 (a - c)
      (by omega)
      (by
        have h1 : a - c < 4294967296 := by omega
        have h2 : (a - c) * (a - c) < 4294967296 * 4294967296 :=
          Nat.mul_lt_mul_of_lt_of_lt h1 h1
        omega)
  · rw [if_neg h, Nat.max_eq_right (by omega), Nat.min_eq_left (by omega),
      show a + U64 - c = U64 - (c - a) by omega]
    exact negadd_sq U64 (c - a)
      (by omega)
      (by
        have h1 : c - a < 4294967296 := by omega
        have h2 : (c - a) * (c - a) < 4294967296 * 4294967296 :=
          Nat.mul_lt_mul_of_lt_of_lt h1 h1
        omega)

theorem distance_eq_sqDist (a b c d : ℕ)
    (ha : a < 2 ^ 32) (hb : b < 2 ^ 32) (hc : c < 2 ^ 32) (hd : d < 2 ^ 32)
    (hsum : sqDist a b c d < U64) :
    distance a b c d = sqDist a b c d := by
  unfold distance
  rw [distanceSub_sq a c ha hc, distanceSub_sq b d hb hd]
  exact Nat.mod_eq_of_lt hsum

theorem mod_diff_sq (T u v : ℕ) (hu : u < Nat.sqrt T) (hv : v < Nat.sqrt T) :
    (((T - v % T) % T + u) % T) * (((T - v % T) % T + u) % T) % T
      = (max u v - min u v) * (max u v - min u v) := by
  have hsq : Nat.sqrt T * Nat.sqrt T ≤ T := Nat.sqrt_le T
  have hT : 0 < T := by
    rcases Nat.eq_zero_or_pos T with h0 | h0
    · rw [h0] at hu; simp [Nat.sqrt_zero] at hu
    · exact h0
  have hvT : v < T := lt_of_lt_of_le hv (Nat.sqrt_le_self T)
  have huT : u < T := lt_of_lt_of_le hu (Nat.sqrt_le_self T)
  rw [Nat.mod_eq_of_lt hvT]
  by_cases hcase : v ≤ u
  · have hbounds := sq_bounds_of_lt_sqrt T (u - v) (by omega)
    have hc : ((T - v) % T + u) % T = u - v := by
      rcases Nat.eq_zero_or_pos v with hv0 | hv0
      · subst hv0
        rw [Nat.sub_zero, Nat.mod_self, Nat.zero_add, Nat.mod_eq_of_lt huT,
          Nat.sub_zero]
      · rw [Nat.mod_eq_of_lt (by omega : T - v < T),
          show T - v + u = T + (u - v) by omega,
          Nat.add_mod_left, Nat.mod_eq_of_lt (by omega : u - v < T)]
    rw [hc, Nat.max_eq_left hcase, Nat.min_eq_right hcase,
      Nat.mod_eq_of_lt hbounds.1]
  · push_neg at hcase
    have hbounds := sq_bounds_of_lt_sqrt T (v - u) (by omega)
    have hc : ((T - v) % T + u) % T = T - (v - u) := by
      rw [Nat.mod_eq_of_lt (by omega : T - v < T),
        show T - v + u = T - (v - u) by omega,
        Nat.mod_eq_of_lt (by omega : T - (v - u) < T)]
    rw [hc, Nat.max_eq_right (le_of_lt hcase), Nat.min_eq_left (le_of_lt hcase),
      ← negadd_sq T (v - u) hbounds.2 hbounds.1,
      Nat.mod_eq_of_lt (by omega : T - (v - u) < T)]

/-! ### Decoded slot contents of the evaluation step -/

theorem mkDrivers_cts_getD (nb : ℕ) (dx dy : ℕ → ℕ) (i : ℕ) (hi : i < nb) :
    (mkDrivers nb dx dy).DriverCipherTexts.getD i defaultCt
      = encrypt KeyKind.pk (driverVector i (dx i) (dy i)) := by
  show ((List.range nb).map
      (fun j => encrypt KeyKind.pk (driverVector j (dx j) (dy j)))).getD i defaultCt = _
  rw [getD_map_range _ _ nb i hi]

theorem mkDrivers_data_getD (nb : ℕ) (dx dy : ℕ → ℕ) (i : ℕ) (hi : i < nb) :
    (mkDrivers nb dx dy).DriversData.getD i zeroFn
      = driverVector i (dx i) (dy i) := by
  show ((List.range nb).map
      (fun j => driverVector j (dx j) (dy j))).getD i zeroFn = _
  rw [getD_map_range _ _ nb i hi]

theorem driverSum_x (nb : ℕ) (dx dy : ℕ → ℕ) (i : ℕ) (hi : i < nb) :
    ∑ j ∈ Finset.range nb,
        ((mkDrivers nb dx dy).DriverCipherTexts.getD j defaultCt).slots (2 * i)
      = dx i := by
  rw [Finset.sum_eq_single i
    (fun j hj hne => by
      rw [mkDrivers_cts_getD nb dx dy j (Finset.mem_range.mp hj)]
      show driverVector j (dx j) (dy j) (2 * i) = 0
      rw [driverVector_eval, if_neg (by omega), if_neg (by omega)])
    (fun hnot => absurd (Finset.mem_range.mpr hi) hnot)]
  rw [mkDrivers_cts_getD nb dx dy i hi]
  show driverVector i (dx i) (dy i) (2 * i) = dx i
  rw [driverVector_eval, if_neg (by omega), if_pos rfl]

theorem driverSum_y (nb : ℕ) (dx dy : ℕ → ℕ) (i : ℕ) (hi : i < nb) :
    ∑ j ∈ Finset.range nb,
        ((mkDrivers nb dx dy).DriverCipherTexts.getD j defaultCt).slots (2 * i + 1)
      = dy i := by
  rw [Finset.sum_eq_single i
    (fun j hj hne => by
      rw [mkDrivers_cts_getD nb dx dy j (Finset.mem_range.mp hj)]
      show driverVector j (dx j) (dy j) (2 * i + 1) = 0
      rw [driverVector_eval, if_neg (by omega), if_neg (by omega)])
    (fun hnot => absurd (Finset.mem_range.mpr hi) hnot)]
  rw [mkDrivers_cts_getD nb dx dy i hi]
  show driverVector i (dx i) (dy i) (2 * i + 1) = dy i
  rw [driverVector_eval, if_pos rfl]

theorem evalResult_slots (rider : Rider) (nb : ℕ) (dx dy : ℕ → ℕ) (i : ℕ) (hi : i < nb)
    (hrx : rider.riderPosX < Nat.sqrt rider.Params.T)
    (hry : rider.riderPosY < Nat.sqrt rider.Params.T)
    (hdx : dx i < Nat.sqrt rider.Params.T)
    (hdy : dy i < Nat.sqrt rider.Params.T) :
    evalResult rider
        (encrypt KeyKind.sk (riderVector nb rider.riderPosX rider.riderPosY))
        (mkDrivers nb dx dy) nb (2 * i)
      = (max (dx i) rider.riderPosX - min (dx i) rider.riderPosX)
          * (max (dx i) rider.riderPosX - min (dx i) rider.riderPosX)
    ∧ evalResult rider
        (encrypt KeyKind.sk (riderVector nb rider.riderPosX rider.riderPosY))
        (mkDrivers nb dx dy) nb (2 * i + 1)
      = (max (dy i) rider.riderPosY - min (dy i) rider.riderPosY)
          * (max (dy i) rider.riderPosY - min (dy i) rider.riderPosY) := by
  set T := rider.Params.T with hT
  set rx := rider.riderPosX with hrxdef
  set ry := rider.riderPosY with hrydef
  constructor
  · show (accumulateCt T (encrypt KeyKind.sk (riderVector nb rx ry))
        (mkDrivers nb dx dy).DriverCipherTexts nb).slots (2 * i)
      * (accumulateCt T (encrypt KeyKind.sk (riderVector nb rx ry))
        (mkDrivers nb dx dy).DriverCipherTexts nb).slots (2 * i) % T % T = _
    rw [Nat.mod_mod_of_dvd _ dvd_rfl, accumulateCt_slots, driverSum_x nb dx dy i hi]
    show (((T - riderVector nb rx ry (2 * i) % T) % T + dx i) % T)
        * (((T - riderVector nb rx ry (2 * i) % T) % T + dx i) % T) % T = _
    rw [riderVector_eval, if_pos (by omega), if_pos (by omega)]
    exact mod_diff_sq T (dx i) rx hdx hrx
  · show (accumulateCt T (encrypt KeyKind.sk (riderVector nb rx ry))
        (mkDrivers nb dx dy).DriverCipherTexts nb).slots (2 * i + 1)
      * (accumulateCt T (encrypt KeyKind.sk (riderVector nb rx ry))
        (mkDrivers nb dx dy).DriverCipherTexts nb).slots (2 * i + 1) % T % T = _
    rw [Nat.mod_mod_of_dvd _ dvd_rfl, accumulateCt_slots, driverSum_y nb dx dy i hi]
    show (((T - riderVector nb rx ry (2 * i + 1) % T) % T + dy i) % T)
        * (((T - riderVector nb rx ry (2 * i + 1) % T) % T + dy i) % T) % T = _
    rw [riderVector_eval, if_pos (by omega), if_neg (by omega)]
    exact mod_diff_sq T (dy i) ry hdy hry

/-! ### The selection loop -/

theorem selLoop_succ (T rx ry : ℕ) (result : ℕ → ℕ) (data : List (ℕ → ℕ)) (n : ℕ) :
    selLoop T rx ry result data (n + 1)
      = selStep rx ry result data (selLoop T rx ry result data n) n := by
  unfold selLoop
  rw [List.range_succ, List.foldl_append]
  rfl

theorem selLoop_all_mismatch (T rx ry : ℕ) (result : ℕ → ℕ) (data : List (ℕ → ℕ)) :
    ∀ nb,
    (∀ i, i < nb → (result (2 * i) + result (2 * i + 1)) % U64
        ≠ distance ((data.getD i zeroFn) (2 * i)) ((data.getD i zeroFn) (2 * i + 1)) rx ry) →
    selLoop T rx ry result data nb = ⟨0, T, T, T, nb⟩ := by
  intro nb
  induction nb with
  | zero => intro _; rfl
  | succ n ih =>
    intro h
    rw [selLoop_succ, ih (fun i hi => h i (by omega))]
    unfold selStep
    rw [if_neg (h n (by omega))]

theorem selLoop_errors_eq (T rx ry : ℕ) (result : ℕ → ℕ) (data : List (ℕ → ℕ)) :
    ∀ nb, (selLoop T rx ry result data nb).errors
      = mismatchCount rx ry result data nb := by
  intro nb
  induction nb with
  | zero => rfl
  | succ n ih =>
    rw [selLoop_succ]
    unfold selStep mismatchCount
    rw [Finset.range_succ, Finset.filter_insert]
    by_cases h : (result (2 * n) + result (2 * n + 1)) % U64
        = distance ((data.getD n zeroFn) (2 * n)) ((data.getD n zeroFn) (2 * n + 1)) rx ry
    · rw [if_pos h, if_neg (not_not_intro h)]
      by_cases hlt : (result (2 * n) + result (2 * n + 1)) % U64
          < (selLoop T rx ry result data n).minDist
      · rw [if_pos hlt]
        exact ih
      · rw [if_neg hlt]
        exact ih
    · rw [if_neg h, if_pos h,
        Finset.card_insert_of_not_mem (by simp)]
      show (selLoop T rx ry result data n).errors + 1 = _ + 1
      rw [ih]
      rfl

theorem selLoop_argmin (T rx ry : ℕ) (result : ℕ → ℕ) (data : List (ℕ → ℕ)) (d : ℕ → ℕ) :
    ∀ nb,
    (∀ i, i < nb → (result (2 * i) + result (2 * i + 1)) % U64
        = distance ((data.getD i zeroFn) (2 * i)) ((data.getD i zeroFn) (2 * i + 1)) rx ry) →
    (∀ i, i < nb → (result (2 * i) + result (2 * i + 1)) % U64 = d i) →
    (selLoop T rx ry result data nb).errors = 0 ∧
    (((∀ i, i < nb → T ≤ d i)
        ∧ (selLoop T rx ry result data nb).minIndex = 0
        ∧ (selLoop T rx ry result data nb).minDist = T)
     ∨ ((selLoop T rx ry result data nb).minIndex < nb
        ∧ d ((selLoop T rx ry result data nb).minIndex)
            = (selLoop T rx ry result data nb).minDist
        ∧ (selLoop T rx ry result data nb).minDist < T
        ∧ (∀ j, j < nb → (selLoop T rx ry result data nb).minDist ≤ d j)
        ∧ (∀ j, j < (selLoop T rx ry result data nb).minIndex
            → (selLoop T rx ry result data nb).minDist < d j))) := by
  intro nb
  induction nb with
  | zero =>
    intro _ _
    exact ⟨rfl, Or.inl ⟨fun i hi => absurd hi (by omega), rfl, rfl⟩⟩
  | succ n ih =>
    intro hpass hd
    obtain ⟨herr, hbr⟩ := ih (fun i hi => hpass i (by omega)) (fun i hi => hd i (by omega))
    rw [selLoop_succ]
    unfold selStep
    rw [if_pos (hpass n (by omega))]
    by_cases hlt : (result (2 * n) + result (2 * n + 1)) % U64
        < (selLoop T rx ry result data n).minDist
    · rw [if_pos hlt]
      have hdn := hd n (by omega)
      refine ⟨herr, Or.inr ?_⟩
      have hnewdist : (SelState.mk n ((data.getD n zeroFn) (2 * n))
          ((data.getD n zeroFn) (2 * n + 1))
          ((result (2 * n) + result (2 * n + 1)) % U64)
          (selLoop T rx ry result data n).errors).minDist = d n := hdn
      refine ⟨by show n < n + 1; omega, by rw [hnewdist], ?_, ?_, ?_⟩
      · show (result (2 * n) + result (2 * n + 1)) % U64 < T
        rcases hbr with ⟨_, _, hdist⟩ | ⟨_, _, hdist, _, _⟩
        · omega
        · omega
      · intro j hj
        show (result (2 * n) + result (2 * n + 1)) % U64 ≤ d j
        rcases hbr with ⟨hall, _, hdist⟩ | ⟨_, _, _, hle, _⟩
        · rcases Nat.lt_succ_iff_lt_or_eq.mp hj with hj' | hj'
          · have := hall j hj'
            omega
          · subst hj'; omega
        · rcases Nat.lt_succ_iff_lt_or_eq.mp hj with hj' | hj'
          · have := hle j hj'
            omega
          · subst hj'; omega
      · intro j hj
        show (result (2 * n) + result (2 * n + 1)) % U64 < d j
        have hjn : j < n := hj
        rcases hbr with ⟨hall, _, hdist⟩ | ⟨_, _, _, hle, _⟩
        · have := hall j hjn
          omega
        · have := hle j hjn
          omega
    · rw [if_neg hlt]
      have hdn := hd n (by omega)
      refine ⟨herr, ?_⟩
      rcases hbr with ⟨hall, hidx, hdist⟩ | ⟨h1, h2, h3, h4, h5⟩
      · left
        refine ⟨?_, hidx, hdist⟩
        intro i hi
        rcases Nat.lt_succ_iff_lt_or_eq.mp hi with hi' | hi'
        · exact hall i hi'
        · subst hi'; omega
      · right
        refine ⟨by omega, h2, h3, ?_, h5⟩
        intro j hj
        rcases Nat.lt_succ_iff_lt_or_eq.mp hj with hj' | hj'
        · exact h4 j hj'
        · subst hj'; omega

/-! ### The candidate pool generator -/

theorem genDriversData_succ (maxv n : ℕ) (pr : PRNG) :
    genDriversData maxv (n + 1) pr
      = (⟨(genDriversData maxv n pr).1.stream, (genDriversData maxv n pr).1.pos + 2⟩,
         (genDriversData maxv n pr).2
           ++ [driverVector n
                ((genDriversData maxv n pr).1.stream ((genDriversData maxv n pr).1.pos) % maxv)
                ((genDriversData maxv n pr).1.stream ((genDriversData maxv n pr).1.pos + 1) % maxv)]) := by
  unfold genDriversData
  rw [List.range_succ, List.foldl_append]
  rfl

theorem genDriversData_spec (maxv : ℕ) (pr : PRNG) :
    ∀ nb, (genDriversData maxv nb pr).1 = ⟨pr.stream, pr.pos + 2 * nb⟩
      ∧ (genDriversData maxv nb pr).2.length = nb
      ∧ ∀ i, i < nb → (genDriversData maxv nb pr).2.getD i zeroFn
          = driverVector i (pr.stream (pr.pos + 2 * i) % maxv)
              (pr.stream (pr.pos + 2 * i + 1) % maxv) := by
  intro nb
  induction nb with
  | zero =>
    refine ⟨?_, rfl, fun i hi => absurd hi (by omega)⟩
    show pr = ⟨pr.stream, pr.pos + 2 * 0⟩
    cases pr
    rfl
  | succ n ih =>
    obtain ⟨hpr, hlen, hget⟩ := ih
    rw [genDriversData_succ, hpr]
    refine ⟨?_, ?_, ?_⟩
    · show (⟨pr.stream, pr.pos + 2 * n + 2⟩ : PRNG) = ⟨pr.stream, pr.pos + 2 * (n + 1)⟩
      rw [show pr.pos + 2 * n + 2 = pr.pos + 2 * (n + 1) by omega]
    · show ((genDriversData maxv n pr).2 ++ [_]).length = n + 1
      rw [List.length_append, hlen]
      rfl
    · intro i hi
      rcases Nat.lt_succ_iff_lt_or_eq.mp hi with hi' | hi'
      · show ((genDriversData maxv n pr).2 ++ [_]).getD i zeroFn = _
        rw [List.getD_append _ _ zeroFn i (by omega)]
        exact hget i hi'
      · rw [hi']
        rw [List.getD_append_right _ _ zeroFn n (by omega)]
        rw [hlen, Nat.sub_self]
        rfl

/-! ### Claim theorems -/

/-- Claim C8, counterexample: inside `distance 0 0 1 0` (all inputs below
`maxValue`) the intermediate subtraction after the conditional swap is
`0 - 1` in `uint64` arithmetic and wraps around to `2 ^ 64 - 1`, exceeding
both operands, so the claim that no intermediate subtraction underflows or
wraps is false — even though the final result is still the exact value 1. -/
theorem distance_intermediate_wraps_cex :
    distanceSub 0 1 = 2 ^ 64 - 1 ∧ ¬ distanceSub 0 1 ≤ 1 ∧ distance 0 0 1 0 = 1 := by
  refine ⟨by decide, by decide, by decide⟩

/-- Claim C8 (amended): for all inputs with every component below
`maxValue = floor(sqrt(T))`, `distance a b c d` returns exactly
`(max a c - min a c)^2 + (max b d - min b d)^2` and is symmetric in the two
coordinate pairs; the intermediate `uint64` subtraction may wrap around,
but the wrap cancels under the `uint64` squaring, so the result is exact. -/
theorem distance_correct (a b c d : ℕ)
    (ha : a < maxValueOf paramDef.T) (hb : b < maxValueOf paramDef.T)
    (hc : c < maxValueOf paramDef.T) (hd : d < maxValueOf paramDef.T) :
    distance a b c d
      = (max a c - min a c) * (max a c - min a c)
        + (max b d - min b d) * (max b d - min b d)
    ∧ distance a b c d = distance c d a b := by
  rw [maxValue_T0] at ha hb hc hd
  have h32 : (2:ℕ) ^ 32 = 4294967296 := by norm_num
  have hU : U64 = 18446744073709551616 := by norm_num [U64]
  have hd1 : max a c - min a c < 8119 := by omega
  have hd2 : max b d - min b d < 8119 := by omega
  have hp1 : (max a c - min a c) * (max a c - min a c) < 8119 * 8119 :=
    Nat.mul_lt_mul_of_lt_of_lt hd1 hd1
  have hp2 : (max b d - min b d) * (max b d - min b d) < 8119 * 8119 :=
    Nat.mul_lt_mul_of_lt_of_lt hd2 hd2
  have hsum : sqDist a b c d < U64 := by
    unfold sqDist
    omega
  have hsum2 : sqDist c d a b < U64 := by
    unfold sqDist
    have e1 : max c a = max a c := Nat.max_comm c a
    have e2 : min c a = min a c := Nat.min_comm c a
    have e3 : max d b = max b d := Nat.max_comm d b
    have e4 : min d b = min b d := Nat.min_comm d b
    rw [e1, e2, e3, e4]
    omega
  have heq := distance_eq_sqDist a b c d (by omega) (by omega) (by omega) (by omega) hsum
  have heq2 := distance_eq_sqDist c d a b (by omega) (by omega) (by omega) (by omega) hsum2
  refine ⟨heq, ?_⟩
  rw [heq, heq2]
  unfold sqDist
  rw [Nat.max_comm c a, Nat.min_comm c a, Nat.max_comm d b, Nat.min_comm d b]

/-- Witness for claim C8: the amended statement applied at the concrete
input `(12, 10)` against `(10, 10)`. -/
theorem distance_correct_witness :
    12 < maxValueOf paramDef.T ∧ 10 < maxValueOf paramDef.T
    ∧ (distance 12 10 10 10
        = (max 12 10 - min 12 10) * (max 12 10 - min 12 10)
          + (max 10 10 - min 10 10) * (max 10 10 - min 10 10)
      ∧ distance 12 10 10 10 = distance 10 10 12 10) :=
  ⟨by rw [maxValue_T0]; norm_num, by rw [maxValue_T0]; norm_num,
   distance_correct 12 10 10 10
    (by rw [maxValue_T0]; norm_num) (by rw [maxValue_T0]; norm_num)
    (by rw [maxValue_T0]; norm_num) (by rw [maxValue_T0]; norm_num)⟩

/-- Claim C9: under the invariant `N ≥ 2 * candidateCount`, every slot
index `2i`, `2i+1` used for candidate `i` is strictly below `N`; the
requester vector and each candidate vector are supported strictly below
`N`; and distinct candidates occupy pairwise disjoint slot blocks. -/
theorem slot_accesses_in_bounds (p : Params) (nb rx ry : ℕ) (dx dy : ℕ → ℕ)
    (hN : 2 * nb ≤ p.N) :
    ∀ i, i < nb →
      (2 * i < p.N ∧ 2 * i + 1 < p.N)
      ∧ (∀ s, riderVector nb rx ry s ≠ 0 → s < p.N)
      ∧ (∀ s, driverVector i (dx i) (dy i) s ≠ 0 → s < p.N)
      ∧ (∀ j, j < nb → j ≠ i → ∀ s,
          driverVector i (dx i) (dy i) s ≠ 0 → driverVector j (dx j) (dy j) s = 0) := by
  intro i hi
  refine ⟨⟨by omega, by omega⟩, ?_, ?_, ?_⟩
  · intro s hs
    rw [riderVector_eval] at hs
    by_cases h : s < 2 * nb
    · omega
    · rw [if_neg h] at hs
      exact absurd rfl hs
  · intro s hs
    rw [driverVector_eval] at hs
    by_cases h1 : s = 2 * i + 1
    · omega
    · rw [if_neg h1] at hs
      by_cases h2 : s = 2 * i
      · omega
      · rw [if_neg h2] at hs
        exact absurd rfl hs
  · intro j hj hne s hs
    rw [driverVector_eval] at hs
    have hsval : s = 2 * i + 1 ∨ s = 2 * i := by
      by_cases h1 : s = 2 * i + 1
      · exact Or.inl h1
      · rw [if_neg h1] at hs
        by_cases h2 : s = 2 * i
        · exact Or.inr h2
        · rw [if_neg h2] at hs
          exact absurd rfl hs
    rw [driverVector_eval, if_neg (by omega), if_neg (by omega)]

/-- Witness for claim C9: the bound-safety statement applied at the code's
parameters with four candidates. -/
theorem slot_accesses_in_bounds_witness :
    2 * 4 ≤ paramDef.N ∧ 2 < 4
    ∧ ((2 * 2 < paramDef.N ∧ 2 * 2 + 1 < paramDef.N)
      ∧ (∀ s, riderVector 4 5 6 s ≠ 0 → s < paramDef.N)
      ∧ (∀ s, driverVector 2 7 8 s ≠ 0 → s < paramDef.N)
      ∧ (∀ j, j < 4 → j ≠ 2 → ∀ s,
          driverVector 2 7 8 s ≠ 0 → driverVector j 7 8 s = 0)) :=
  ⟨by decide, by decide,
   slot_accesses_in_bounds paramDef 4 5 6 (fun _ => 7) (fun _ => 8) (by decide) 2 (by decide)⟩

/-- Claim C4: the selection state returned by `FindClosestDriver` carries an
error counter equal to the number of candidate indices whose decoded
slot-pair sum disagrees with the plaintext recomputation `distance`, and a
mismatching candidate only increments the counter, leaving the minimum
tracking fields untouched — the loop never aborts. -/
theorem findClosest_error_count (rider : Rider) (rct : Ciphertext) (drivers : Drivers) (nb : ℕ) :
    (FindClosestDriver rider rct drivers nb).2.2.errors
      = mismatchCount rider.riderPosX rider.riderPosY
          (evalResult rider rct drivers nb) drivers.DriversData nb
    ∧ (∀ (st : SelState) (i : ℕ),
        (evalResult rider rct drivers nb (2 * i) + evalResult rider rct drivers nb (2 * i + 1)) % U64
          ≠ distance ((drivers.DriversData.getD i zeroFn) (2 * i))
              ((drivers.DriversData.getD i zeroFn) (2 * i + 1)) rider.riderPosX rider.riderPosY
        → selStep rider.riderPosX rider.riderPosY (evalResult rider rct drivers nb)
            drivers.DriversData st i
          = ⟨st.minIndex, st.minPosX, st.minPosY, st.minDist, st.errors + 1⟩) := by
  constructor
  · exact selLoop_errors_eq rider.Params.T rider.riderPosX rider.riderPosY
      (evalResult rider rct drivers nb) drivers.DriversData nb
  · intro st i h
    unfold selStep
    rw [if_neg h]

/-- Witness for claim C4: a pool whose stored plaintext data disagrees with
its ciphertext, so candidate 0 mismatches; the error counter is 1 and the
mismatch step only increments `errors`. -/
theorem findClosest_error_count_witness :
    ((evalResult c4Rider c4Ct c4Drivers 1 (2 * 0) + evalResult c4Rider c4Ct c4Drivers 1 (2 * 0 + 1)) % U64
        ≠ distance ((c4Drivers.DriversData.getD 0 zeroFn) (2 * 0))
            ((c4Drivers.DriversData.getD 0 zeroFn) (2 * 0 + 1)) c4Rider.riderPosX c4Rider.riderPosY)
    ∧ (FindClosestDriver c4Rider c4Ct c4Drivers 1).2.2.errors = 1
    ∧ selStep c4Rider.riderPosX c4Rider.riderPosY (evalResult c4Rider c4Ct c4Drivers 1)
        c4Drivers.DriversData ⟨0, 3, 3, 3, 0⟩ 0
      = ⟨0, 3, 3, 3, 0 + 1⟩ :=
  ⟨by decide, by decide,
   (findClosest_error_count c4Rider c4Ct c4Drivers 1).2 ⟨0, 3, 3, 3, 0⟩ 0 (by decide)⟩

/-- Claim C5: on a pool whose candidate vectors are supported on their own
slot pairs only, the evaluate step (negate, add all candidate ciphertexts
in index order, square once) produces a decoded result holding
`(driverX_i - riderX)^2` in slot `2i` and `(driverY_i - riderY)^2` in slot
`2i + 1` for every candidate `i`. -/
theorem evaluate_slot_squares (rider : Rider) (nb : ℕ) (dx dy : ℕ → ℕ) (i : ℕ) (hi : i < nb)
    (hrx : rider.riderPosX < maxValueOf rider.Params.T)
    (hry : rider.riderPosY < maxValueOf rider.Params.T)
    (hdx : dx i < maxValueOf rider.Params.T)
    (hdy : dy i < maxValueOf rider.Params.T) :
    evalResult rider
        (encrypt KeyKind.sk (riderVector nb rider.riderPosX rider.riderPosY))
        (mkDrivers nb dx dy) nb (2 * i)
      = (max (dx i) rider.riderPosX - min (dx i) rider.riderPosX)
          * (max (dx i) rider.riderPosX - min (dx i) rider.riderPosX)
    ∧ evalResult rider
        (encrypt KeyKind.sk (riderVector nb rider.riderPosX rider.riderPosY))
        (mkDrivers nb dx dy) nb (2 * i + 1)
      = (max (dy i) rider.riderPosY - min (dy i) rider.riderPosY)
          * (max (dy i) rider.riderPosY - min (dy i) rider.riderPosY) :=
  evalResult_slots rider nb dx dy i hi hrx hry hdx hdy

theorem maxValue_riderAt (rx ry : ℕ) : maxValueOf (riderAt rx ry).Params.T = 8119 :=
  maxValue_T0

/-- Witness for claim C5: the slot contents at the concrete scenario of one
candidate at `(12, 10)` against the requester at `(10, 10)`. -/
theorem evaluate_slot_squares_witness :
    0 < 1
    ∧ (riderAt 10 10).riderPosX < maxValueOf (riderAt 10 10).Params.T
    ∧ (evalResult (riderAt 10 10)
          (encrypt KeyKind.sk (riderVector 1 (riderAt 10 10).riderPosX (riderAt 10 10).riderPosY))
          (mkDrivers 1 (fun _ => 12) (fun _ => 10)) 1 (2 * 0)
        = (max 12 (riderAt 10 10).riderPosX - min 12 (riderAt 10 10).riderPosX)
            * (max 12 (riderAt 10 10).riderPosX - min 12 (riderAt 10 10).riderPosX)
      ∧ evalResult (riderAt 10 10)
          (encrypt KeyKind.sk (riderVector 1 (riderAt 10 10).riderPosX (riderAt 10 10).riderPosY))
          (mkDrivers 1 (fun _ => 12) (fun _ => 10)) 1 (2 * 0 + 1)
        = (max 10 (riderAt 10 10).riderPosY - min 10 (riderAt 10 10).riderPosY)
            * (max 10 (riderAt 10 10).riderPosY - min 10 (riderAt 10 10).riderPosY)) :=
  ⟨by decide, by rw [maxValue_riderAt]; decide,
   evaluate_slot_squares (riderAt 10 10) 1 (fun _ => 12) (fun _ => 10) 0 (by decide)
    (by rw [maxValue_riderAt]; decide) (by rw [maxValue_riderAt]; decide)
    (by rw [maxValue_riderAt]; decide) (by rw [maxValue_riderAt]; decide)⟩

/-- Claim C6: `GetCipheredPosition` samples a coordinate with both
components below `maxValue`, stores it in the rider context, replicates it
into slot pair `(2i, 2i+1)` for every candidate index `i` (remaining slots
zero), and encrypts the encoded vector under the rider's own secret key. -/
theorem getCipheredPosition_spec (rider : Rider) (nb : ℕ) (hp : rider.Params = paramDef) :
    ((GetCipheredPosition rider nb).2).keyKind = KeyKind.sk
    ∧ (GetCipheredPosition rider nb).1.riderPosX < maxValueOf rider.Params.T
    ∧ (GetCipheredPosition rider nb).1.riderPosY < maxValueOf rider.Params.T
    ∧ (∀ i, i < nb →
        ((GetCipheredPosition rider nb).2).slots (2 * i)
            = (GetCipheredPosition rider nb).1.riderPosX
        ∧ ((GetCipheredPosition rider nb).2).slots (2 * i + 1)
            = (GetCipheredPosition rider nb).1.riderPosY)
    ∧ (∀ s, 2 * nb ≤ s → ((GetCipheredPosition rider nb).2).slots s = 0) := by
  have hpos : 0 < maxValueOf rider.Params.T := by
    rw [hp, maxValue_T0]
    norm_num
  refine ⟨rfl, ?_, ?_, ?_, ?_⟩
  · exact Nat.mod_lt _ hpos
  · exact Nat.mod_lt _ hpos
  · intro i hi
    constructor
    · show riderVector nb _ _ (2 * i) = _
      rw [riderVector_eval, if_pos (by omega), if_pos (by omega)]
      rfl
    · show riderVector nb _ _ (2 * i + 1) = _
      rw [riderVector_eval, if_pos (by omega), if_neg (by omega)]
      rfl
  · intro s hs
    show riderVector nb _ _ s = 0
    rw [riderVector_eval, if_neg (by omega)]

/-- Witness for claim C6: the requester-side construction applied to a
fresh rider over the zero PRNG stream with two candidates. -/
theorem getCipheredPosition_spec_witness :
    (NewRider "R" zeroPrng).Params = paramDef
    ∧ (((GetCipheredPosition (NewRider "R" zeroPrng) 2).2).keyKind = KeyKind.sk
      ∧ (GetCipheredPosition (NewRider "R" zeroPrng) 2).1.riderPosX
          < maxValueOf (NewRider "R" zeroPrng).Params.T
      ∧ (GetCipheredPosition (NewRider "R" zeroPrng) 2).1.riderPosY
          < maxValueOf (NewRider "R" zeroPrng).Params.T
      ∧ (∀ i, i < 2 →
          ((GetCipheredPosition (NewRider "R" zeroPrng) 2).2).slots (2 * i)
              = (GetCipheredPosition (NewRider "R" zeroPrng) 2).1.riderPosX
          ∧ ((GetCipheredPosition (NewRider "R" zeroPrng) 2).2).slots (2 * i + 1)
              = (GetCipheredPosition (NewRider "R" zeroPrng) 2).1.riderPosY)
      ∧ (∀ s, 2 * 2 ≤ s → ((GetCipheredPosition (NewRider "R" zeroPrng) 2).2).slots s = 0)) :=
  ⟨rfl, getCipheredPosition_spec (NewRider "R" zeroPrng) 2 rfl⟩

/-- Claim C7: `GetNearDrivers` produces, for each candidate index `i`, a
slot vector carrying a freshly sampled bounded coordinate exactly at the
fixed slot pair `(2i, 2i+1)` and zero elsewhere, encrypted under the
rider's public key; the slot assignment is the deterministic mapping of
candidate `i` to pair `(2i, 2i+1)` with no permutation. -/
theorem getNearDrivers_spec (rider : Rider) (nb : ℕ) (hp : rider.Params = paramDef) :
    ((GetNearDrivers rider nb).2).DriverCipherTexts.length = nb
    ∧ ((GetNearDrivers rider nb).2).DriversData.length = nb
    ∧ (∀ i, i < nb → ∃ dx dy,
        dx < maxValueOf rider.Params.T ∧ dy < maxValueOf rider.Params.T
        ∧ ((GetNearDrivers rider nb).2).DriversData.getD i zeroFn = driverVector i dx dy
        ∧ ((GetNearDrivers rider nb).2).DriverCipherTexts.getD i defaultCt
            = encrypt KeyKind.pk (driverVector i dx dy))
    ∧ (∀ i dx dy s, s ≠ 2 * i → s ≠ 2 * i + 1 → driverVector i dx dy s = 0) := by
  obtain ⟨hpr, hlen, hget⟩ :=
    genDriversData_spec (maxValueOf rider.Params.T) rider.Prng nb
  have hpos : 0 < maxValueOf rider.Params.T := by
    rw [hp, maxValue_T0]
    norm_num
  refine ⟨?_, hlen, ?_, ?_⟩
  · show ((genDriversData (maxValueOf rider.Params.T) nb rider.Prng).2.map
        (fun v => encrypt KeyKind.pk v)).length = nb
    rw [List.length_map]
    exact hlen
  · intro i hi
    refine ⟨rider.Prng.stream (rider.Prng.pos + 2 * i) % maxValueOf rider.Params.T,
      rider.Prng.stream (rider.Prng.pos + 2 * i + 1) % maxValueOf rider.Params.T,
      Nat.mod_lt _ hpos, Nat.mod_lt _ hpos, hget i hi, ?_⟩
    show ((genDriversData (maxValueOf rider.Params.T) nb rider.Prng).2.map
        (fun v => encrypt KeyKind.pk v)).getD i defaultCt = _
    have hilen : i < (genDriversData (maxValueOf rider.Params.T) nb rider.Prng).2.length := by
      omega
    rw [List.getD_eq_getElem _ _ (by rw [List.length_map]; omega), List.getElem_map,
      ← List.getD_eq_getElem _ zeroFn hilen, hget i hi]
  · intro i dx dy s h1 h2
    rw [driverVector_eval, if_neg h2, if_neg h1]

/-- Witness for claim C7: the candidate-pool construction applied to a
fresh rider over the zero PRNG stream with two candidates. -/
theorem getNearDrivers_spec_witness :
    (NewRider "R" zeroPrng).Params = paramDef
    ∧ (((GetNearDrivers (NewRider "R" zeroPrng) 2).2).DriverCipherTexts.length = 2
      ∧ ((GetNearDrivers (NewRider "R" zeroPrng) 2).2).DriversData.length = 2
      ∧ (∀ i, i < 2 → ∃ dx dy,
          dx < maxValueOf (NewRider "R" zeroPrng).Params.T
          ∧ dy < maxValueOf (NewRider "R" zeroPrng).Params.T
          ∧ ((GetNearDrivers (NewRider "R" zeroPrng) 2).2).DriversData.getD i zeroFn
              = driverVector i dx dy
          ∧ ((GetNearDrivers (NewRider "R" zeroPrng) 2).2).DriverCipherTexts.getD i defaultCt
              = encrypt KeyKind.pk (driverVector i dx dy))
      ∧ (∀ i dx dy s, s ≠ 2 * i → s ≠ 2 * i + 1 → driverVector i dx dy s = 0)) :=
  ⟨rfl, getNearDrivers_spec (NewRider "R" zeroPrng) 2 rfl⟩

/-- Claim C10: `FindClosestDriver` accumulates the negation and the
homomorphic additions into the caller's ciphertext argument, so after the
call that ciphertext holds the negated accumulated sum rather than the
encrypted requester position; rerunning the evaluate-and-select step on the
mutated ciphertext yields a different result than the first run. -/
theorem findClosest_mutates_rider_ciphertext :
    (∀ (rider : Rider) (rct : Ciphertext) (drivers : Drivers) (nb s : ℕ),
      ((FindClosestDriver rider rct drivers nb).1).slots s
        = ((rider.Params.T - rct.slots s % rider.Params.T) % rider.Params.T
            + ∑ i ∈ Finset.range nb, (drivers.DriverCipherTexts.getD i defaultCt).slots s)
          % rider.Params.T)
    ∧ ((FindClosestDriver (riderAt 10 10) c10Ct c10Drivers 1).1).slots 0 ≠ c10Ct.slots 0
    ∧ (FindClosestDriver (riderAt 10 10)
          ((FindClosestDriver (riderAt 10 10) c10Ct c10Drivers 1).1) c10Drivers 1).2.2.minDist
        ≠ (FindClosestDriver (riderAt 10 10) c10Ct c10Drivers 1).2.2.minDist := by
  refine ⟨?_, by decide, by decide⟩
  intro rider rct drivers nb s
  exact accumulateCt_slots rider.Params.T rct drivers.DriverCipherTexts nb s

/-- Claim C2, counterexample: with zero candidates the round completes but
the returned winning identifier is `"Driver0"`, not the empty value, and
the caller-visible found flag is `true`, not `false` — `FindClosestDriver`
always writes `"Driver" + itoa(minIndex)` with `minIndex` initialised to 0. -/
theorem obliviousRideMatching_no_match_cex :
    ObliviousRideMatching 0 "Rider" zeroPrng = ("Driver0", true) := by
  simp only [ObliviousRideMatching, NewRider, GetCipheredPosition, GetNearDrivers,
    genDriversData, randUniform, Nat.zero_mod]
  decide

/-- Claim C2 (amended): in a round where every candidate fails the
consistency check (vacuously so with zero candidates), no crash occurs, the
error counter equals the candidate count, and the returned winning
identifier is `"Driver0"` — the initial `minIndex = 0` rendered through
`"Driver" + itoa` — which is nonempty, so the caller's found flag is true. -/
theorem findClosest_all_mismatch_driver0 (rider : Rider) (rct : Ciphertext)
    (drivers : Drivers) (nb : ℕ)
    (h : ∀ i, i < nb →
        (evalResult rider rct drivers nb (2 * i) + evalResult rider rct drivers nb (2 * i + 1)) % U64
          ≠ distance ((drivers.DriversData.getD i zeroFn) (2 * i))
              ((drivers.DriversData.getD i zeroFn) (2 * i + 1))
              rider.riderPosX rider.riderPosY) :
    (FindClosestDriver rider rct drivers nb).2.1.ClosestDriverID = "Driver0"
    ∧ (FindClosestDriver rider rct drivers nb).2.2.minIndex = 0
    ∧ (FindClosestDriver rider rct drivers nb).2.2.errors = nb
    ∧ (FindClosestDriver rider rct drivers nb).2.1.ClosestDriverID ≠ "" := by
  have hsel := selLoop_all_mismatch rider.Params.T rider.riderPosX rider.riderPosY
    (evalResult rider rct drivers nb) drivers.DriversData nb h
  refine ⟨?_, ?_, ?_, ?_⟩
  · show "Driver" ++ Nat.repr (selLoop rider.Params.T rider.riderPosX rider.riderPosY
        (evalResult rider rct drivers nb) drivers.DriversData nb).minIndex = "Driver0"
    rw [hsel]
    show "Driver" ++ Nat.repr 0 = "Driver0"
    decide
  · show (selLoop rider.Params.T rider.riderPosX rider.riderPosY
        (evalResult rider rct drivers nb) drivers.DriversData nb).minIndex = 0
    rw [hsel]
  · show (selLoop rider.Params.T rider.riderPosX rider.riderPosY
        (evalResult rider rct drivers nb) drivers.DriversData nb).errors = nb
    rw [hsel]
  · show "Driver" ++ Nat.repr (selLoop rider.Params.T rider.riderPosX rider.riderPosY
        (evalResult rider rct drivers nb) drivers.DriversData nb).minIndex ≠ ""
    rw [hsel]
    show "Driver" ++ Nat.repr 0 ≠ ""
    decide

/-- Witness for claim C2: the amended statement applied at zero candidates,
where the all-mismatch hypothesis holds vacuously. -/
theorem findClosest_all_mismatch_driver0_witness :
    (∀ i, i < 0 →
        (evalResult (riderAt 0 0) c1Ct c1Drivers 0 (2 * i)
            + evalResult (riderAt 0 0) c1Ct c1Drivers 0 (2 * i + 1)) % U64
          ≠ distance ((c1Drivers.DriversData.getD i zeroFn) (2 * i))
              ((c1Drivers.DriversData.getD i zeroFn) (2 * i + 1))
              (riderAt 0 0).riderPosX (riderAt 0 0).riderPosY)
    ∧ ((FindClosestDriver (riderAt 0 0) c1Ct c1Drivers 0).2.1.ClosestDriverID = "Driver0"
      ∧ (FindClosestDriver (riderAt 0 0) c1Ct c1Drivers 0).2.2.minIndex = 0
      ∧ (FindClosestDriver (riderAt 0 0) c1Ct c1Drivers 0).2.2.errors = 0
      ∧ (FindClosestDriver (riderAt 0 0) c1Ct c1Drivers 0).2.1.ClosestDriverID ≠ "") :=
  ⟨fun i hi => absurd hi (by omega),
   findClosest_all_mismatch_driver0 (riderAt 0 0) c1Ct c1Drivers 0
    (fun i hi => absurd hi (by omega))⟩

/-- Claim C3, counterexample: for `T = 0x3ee0001` the sampling bound is
`maxValue = floor(sqrt(T)) = 8119`, not 256 as the claim states. -/
theorem maxValue_not_256_cex :
    maxValueOf paramDef.T = 8119 ∧ maxValueOf paramDef.T ≠ 256 :=
  ⟨maxValue_T0, by rw [maxValue_T0]; norm_num⟩

/-- Claim C3 (amended): with `T = 0x3ee0001` the bound is
`maxValue = floor(sqrt(T)) = 8119`; for the requester at `(10, 10)` and
candidates `(12, 10)`, `(10, 7)`, `(100, 100)`, `(10, 10)`, the decoded
slot-pair sums are `4, 9, 16200, 0` and selection returns winner index 3
with `minDistance = 0` and zero errors. -/
theorem concrete_scenario_winner :
    maxValueOf paramDef.T = 8119
    ∧ evalResult c3Rider c3Ct c3Drivers 4 0 + evalResult c3Rider c3Ct c3Drivers 4 1 = 4
    ∧ evalResult c3Rider c3Ct c3Drivers 4 2 + evalResult c3Rider c3Ct c3Drivers 4 3 = 9
    ∧ evalResult c3Rider c3Ct c3Drivers 4 4 + evalResult c3Rider c3Ct c3Drivers 4 5 = 16200
    ∧ evalResult c3Rider c3Ct c3Drivers 4 6 + evalResult c3Rider c3Ct c3Drivers 4 7 = 0
    ∧ (FindClosestDriver c3Rider c3Ct c3Drivers 4).2.2 = ⟨3, 10, 10, 0, 0⟩
    ∧ (FindClosestDriver c3Rider c3Ct c3Drivers 4).2.1.ClosestDriverID = "Driver3" :=
  ⟨maxValue_T0, by decide, by decide, by decide, by decide, by decide, by decide⟩

/-- Claim C1, counterexample: with the code's parameters, the requester at
`(0, 0)` and two candidates at `(8118, 8118)` and `(8118, 166)` (all
coordinates below `maxValue`, both consistency checks passing), both true
squared distances reach or exceed `T = 0x3ee0001`, so neither displaces the
initial running minimum `minDist = T`; the winner is index 0 although
candidate 1 is strictly closer — selection does not return the argmin. -/
theorem findClosest_not_argmin_cex :
    (FindClosestDriver (riderAt 0 0) c1Ct c1Drivers 2).2.2.minIndex = 0
    ∧ (FindClosestDriver (riderAt 0 0) c1Ct c1Drivers 2).2.2.errors = 0
    ∧ sqDist (c1dx 1) (c1dy 1) 0 0 < sqDist (c1dx 0) (c1dy 0) 0 0
    ∧ c1dx 0 < maxValueOf paramDef.T ∧ c1dy 0 < maxValueOf paramDef.T
    ∧ c1dx 1 < maxValueOf paramDef.T ∧ c1dy 1 < maxValueOf paramDef.T
    ∧ 2 * 2 ≤ paramDef.N :=
  ⟨by decide, by decide, by decide,
   by rw [maxValue_T0]; decide, by rw [maxValue_T0]; decide,
   by rw [maxValue_T0]; decide, by rw [maxValue_T0]; decide, by decide⟩

/-- Claim C1 (amended): on a zero-error pool, whenever at least one
candidate's true squared distance is below the plaintext modulus `T` (the
initial running minimum), the evaluate-then-select pipeline returns the
candidate minimizing the squared Euclidean distance, with ties broken in
favour of the lowest index; the counterexample above forces the added
hypothesis, since a round where every distance reaches `T` keeps the
initial `minIndex = 0`. -/
theorem findClosest_selects_argmin (rider : Rider) (nb : ℕ) (dx dy : ℕ → ℕ)
    (hTW : 2 * rider.Params.T ≤ U64)
    (hN : 2 * nb ≤ rider.Params.N)
    (hrx : rider.riderPosX < maxValueOf rider.Params.T)
    (hry : rider.riderPosY < maxValueOf rider.Params.T)
    (hdx : ∀ i, i < nb → dx i < maxValueOf rider.Params.T)
    (hdy : ∀ i, i < nb → dy i < maxValueOf rider.Params.T)
    (hmin : ∃ i, i < nb
        ∧ sqDist (dx i) (dy i) rider.riderPosX rider.riderPosY < rider.Params.T) :
    (runPipeline rider nb dx dy).2.2.minIndex < nb
    ∧ (runPipeline rider nb dx dy).2.2.errors = 0
    ∧ (runPipeline rider nb dx dy).2.2.minDist
        = sqDist (dx ((runPipeline rider nb dx dy).2.2.minIndex))
            (dy ((runPipeline rider nb dx dy).2.2.minIndex))
            rider.riderPosX rider.riderPosY
    ∧ (∀ j, j < nb → (runPipeline rider nb dx dy).2.2.minDist
        ≤ sqDist (dx j) (dy j) rider.riderPosX rider.riderPosY)
    ∧ (∀ j, j < (runPipeline rider nb dx dy).2.2.minIndex
        → (runPipeline rider nb dx dy).2.2.minDist
            < sqDist (dx j) (dy j) rider.riderPosX rider.riderPosY)
    ∧ (runPipeline rider nb dx dy).2.1.ClosestDriverID
        = "Driver" ++ Nat.repr ((runPipeline rider nb dx dy).2.2.minIndex) := by
  have hs32 : Nat.sqrt rider.Params.T < 2 ^ 32 := by
    by_contra hcon
    push_neg at hcon
    have h1 : 2 ^ 32 * 2 ^ 32 ≤ Nat.sqrt rider.Params.T * Nat.sqrt rider.Params.T :=
      Nat.mul_le_mul hcon hcon
    have h2 := Nat.sqrt_le rider.Params.T
    have h3 : (2:ℕ) ^ 32 * 2 ^ 32 = U64 := by norm_num [U64]
    omega
  have hmaxx : ∀ i, i < nb →
      max (dx i) rider.riderPosX - min (dx i) rider.riderPosX < Nat.sqrt rider.Params.T :=
    fun i hi => lt_of_le_of_lt (Nat.sub_le _ _) (Nat.max_lt.mpr ⟨hdx i hi, hrx⟩)
  have hmaxy : ∀ i, i < nb →
      max (dy i) rider.riderPosY - min (dy i) rider.riderPosY < Nat.sqrt rider.Params.T :=
    fun i hi => lt_of_le_of_lt (Nat.sub_le _ _) (Nat.max_lt.mpr ⟨hdy i hi, hry⟩)
  have hsqx : ∀ i, i < nb →
      (max (dx i) rider.riderPosX - min (dx i) rider.riderPosX)
        * (max (dx i) rider.riderPosX - min (dx i) rider.riderPosX) < rider.Params.T :=
    fun i hi => (sq_bounds_of_lt_sqrt _ _ (hmaxx i hi)).1
  have hsqy : ∀ i, i < nb →
      (max (dy i) rider.riderPosY - min (dy i) rider.riderPosY)
        * (max (dy i) rider.riderPosY - min (dy i) rider.riderPosY) < rider.Params.T :=
    fun i hi => (sq_bounds_of_lt_sqrt _ _ (hmaxy i hi)).1
  have hcomp : ∀ i, i < nb →
      (evalResult rider
          (encrypt KeyKind.sk (riderVector nb rider.riderPosX rider.riderPosY))
          (mkDrivers nb dx dy) nb (2 * i)
        + evalResult rider
          (encrypt KeyKind.sk (riderVector nb rider.riderPosX rider.riderPosY))
          (mkDrivers nb dx dy) nb (2 * i + 1)) % U64
      = sqDist (dx i) (dy i) rider.riderPosX rider.riderPosY := by
    intro i hi
    obtain ⟨hx, hy⟩ := evalResult_slots rider nb dx dy i hi hrx hry (hdx i hi) (hdy i hi)
    rw [hx, hy]
    have hs1 := hsqx i hi
    have hs2 := hsqy i hi
    unfold sqDist
    exact Nat.mod_eq_of_lt (by omega)
  have hdataX : ∀ i, i < nb →
      (mkDrivers nb dx dy).DriversData.getD i zeroFn (2 * i) = dx i := by
    intro i hi
    rw [mkDrivers_data_getD nb dx dy i hi, driverVector_eval, if_neg (by omega), if_pos rfl]
  have hdataY : ∀ i, i < nb →
      (mkDrivers nb dx dy).DriversData.getD i zeroFn (2 * i + 1) = dy i := by
    intro i hi
    rw [mkDrivers_data_getD nb dx dy i hi, driverVector_eval, if_pos rfl]
  have hdist : ∀ i, i < nb →
      distance ((mkDrivers nb dx dy).DriversData.getD i zeroFn (2 * i))
          ((mkDrivers nb dx dy).DriversData.getD i zeroFn (2 * i + 1))
          rider.riderPosX rider.riderPosY
        = sqDist (dx i) (dy i) rider.riderPosX rider.riderPosY := by
    intro i hi
    rw [hdataX i hi, hdataY i hi]
    refine distance_eq_sqDist (dx i) (dy i) rider.riderPosX rider.riderPosY
      (lt_trans (hdx i hi) hs32) (lt_trans (hdy i hi) hs32)
      (lt_trans hrx hs32) (lt_trans hry hs32) ?_
    have hs1 := hsqx i hi
    have hs2 := hsqy i hi
    unfold sqDist
    omega
  obtain ⟨herr, hbr⟩ := selLoop_argmin rider.Params.T rider.riderPosX rider.riderPosY
    (evalResult rider
      (encrypt KeyKind.sk (riderVector nb rider.riderPosX rider.riderPosY))
      (mkDrivers nb dx dy) nb)
    (mkDrivers nb dx dy).DriversData
    (fun i => sqDist (dx i) (dy i) rider.riderPosX rider.riderPosY) nb
    (fun i hi => (hcomp i hi).trans (hdist i hi).symm) hcomp
  rcases hbr with ⟨hall, _, _⟩ | ⟨h1, h2, h3, h4, h5⟩
  · obtain ⟨i, hi, hlt⟩ := hmin
    have := hall i hi
    omega
  · exact ⟨h1, herr, h2.symm, h4, h5, rfl⟩

/-- Witness for claim C1: the amended statement applied to the requester at
`(10, 10)` facing one candidate at `(12, 10)`, whose distance 4 is below
`T`. -/
theorem findClosest_selects_argmin_witness :
    2 * (riderAt 10 10).Params.T ≤ U64
    ∧ 2 * 1 ≤ (riderAt 10 10).Params.N
    ∧ (riderAt 10 10).riderPosX < maxValueOf (riderAt 10 10).Params.T
    ∧ (riderAt 10 10).riderPosY < maxValueOf (riderAt 10 10).Params.T
    ∧ (∃ i, i < 1 ∧ sqDist ((fun _ => 12) i) ((fun _ => 10) i)
        (riderAt 10 10).riderPosX (riderAt 10 10).riderPosY < (riderAt 10 10).Params.T)
    ∧ ((runPipeline (riderAt 10 10) 1 (fun _ => 12) (fun _ => 10)).2.2.minIndex < 1
      ∧ (runPipeline (riderAt 10 10) 1 (fun _ => 12) (fun _ => 10)).2.2.errors = 0) := by
  have h := findClosest_selects_argmin (riderAt 10 10) 1 (fun _ => 12) (fun _ => 10)
    (by decide) (by decide)
    (by rw [maxValue_riderAt]; decide) (by rw [maxValue_riderAt]; decide)
    (fun i hi => by rw [maxValue_riderAt]; show (12:ℕ) < 8119; norm_num)
    (fun i hi => by rw [maxValue_riderAt]; show (10:ℕ) < 8119; norm_num)
    ⟨0, by omega, by decide⟩
  exact ⟨by decide, by decide,
    by rw [maxValue_riderAt]; decide, by rw [maxValue_riderAt]; decide,
    ⟨0, by omega, by decide⟩, h.1, h.2.1⟩
